import Mathlib

/-
  Verification development for the confidential-ledger core
  (ledger crypto operations: Pedersen commitments over ristretto255,
  ECIES-style encrypted openings, mint / verify / view / self-update).

  Shallow embedding notes.
  The ristretto255 group is a cyclic group of prime order L with base
  point G and a second generator H obtained by hashing a domain string
  into the group, so that no discrete-log relation between G and H is
  known.  We model the subgroup generated by G and H as the free
  rank-two module over the scalars: a point is a pair of formal
  coordinates (a, b), standing for aG + bH, each reduced into [0, L).
  This is the standard idealisation under which the commitment scheme
  is binding; point addition and scalar multiplication act
  coordinatewise.  Ristretto encodings are canonical (each group
  element has exactly one valid byte encoding and decoding rejects
  everything else), so the hex encoding is modelled as a tagged value
  that either carries the canonical coordinates or is junk that fails
  to decode.  The noble-curves multiply routine used by the source
  rejects scalars outside [1, L) with an exception; the model returns
  none in exactly those cases.
  X25519, HKDF and AES-GCM are platform primitives, idealised
  faithfully to their contracts: Diffie-Hellman shares commute,
  the KDF is a deterministic function of the shared secret, and the
  authenticated cipher decrypts successfully exactly when key and
  nonce match, returning the exact plaintext.  JavaScript bigints are
  Int, byte strings feeding scalars are Nat, and randomness
  (blinding bytes, ephemeral keys, nonces) is threaded explicitly, as
  the source exposes randomBytes for deterministic test stubbing.
  Thrown exceptions are Option / Except values; try-catch blocks that
  convert failures to false are total functions returning false on the
  corresponding none.
-/

namespace CLedger

/-- Order of the ristretto255 group, the constant given inside modL in
the source. -/
def L : Nat := 7237005577332262213973186563042994240857116359379907606001950938285454250989

/-- The group order as an integer, for bigint comparisons. -/
def LI : Int := (L : Int)

/-- A group element in the idealised model: formal coordinates with
respect to the two independent generators G and H, each reduced into
[0, L).  Canonical-form coordinates mirror canonical ristretto
encodings. -/
abbrev Pt := { p : Nat × Nat // p.1 < L ∧ p.2 < L }

/-- The identity element, ristretto255.Point.ZERO in the source. -/
def Pt.zero : Pt := ⟨(0, 0), by decide⟩

/-- Point addition, Point.add in the source. -/
def Pt.add (p q : Pt) : Pt :=
  ⟨((p.val.1 + q.val.1) % L, (p.val.2 + q.val.2) % L),
    Nat.mod_lt _ (by decide), Nat.mod_lt _ (by decide)⟩

/-- Scalar multiplication, Point.multiply in the source.  The noble
library asserts that the scalar lies in [1, L) and throws otherwise;
the model returns none in exactly those cases. -/
def Pt.multiply (p : Pt) (s : Int) : Option Pt :=
  if 1 ≤ s ∧ s < LI then
    some ⟨((s.toNat * p.val.1) % L, (s.toNat * p.val.2) % L),
      Nat.mod_lt _ (by decide), Nat.mod_lt _ (by decide)⟩
  else none

/-- The base point G, first formal generator. -/
def Gpt : Pt := ⟨(1, 0), by decide⟩

/-- The hashed-to-curve point H, second formal generator. -/
def Hpt : Pt := ⟨(0, 1), by decide⟩

/-- Hex encoding of a group element.  A valid ristretto encoding
carries exactly the canonical coordinates of one group element; any
other byte string is junk that fails to decode.  Distinct valid
encodings decode to distinct group elements, as ristretto encodings
are canonical. -/
inductive PointEnc where
  | enc (a b : Nat) : PointEnc
  | junk (tag : Nat) : PointEnc
deriving DecidableEq

/-- pointToHex of the source: serialise a point to its canonical
encoding. -/
def pointToHex (p : Pt) : PointEnc := PointEnc.enc p.val.1 p.val.2

/-- pointFromHex of the source: Point.fromBytes, which throws (here:
none) on junk bytes and on non-canonical encodings. -/
def pointFromHex : PointEnc → Option Pt
  | PointEnc.enc a b =>
      if h : a < L ∧ b < L then some ⟨(a, b), h⟩ else none
  | PointEnc.junk _ => none

/-- A stored decimal string: either the decimal rendering of a bigint
or junk that BigInt() rejects. -/
inductive NumEnc where
  | num (n : Int) : NumEnc
  | junk (tag : Nat) : NumEnc
deriving DecidableEq

/-- decToBig of the source: BigInt(s), which throws (here: none) on a
non-numeric string. -/
def decToBig : NumEnc → Option Int
  | NumEnc.num n => some n
  | NumEnc.junk _ => none

/-- bigToDec of the source: decimal rendering of a bigint. -/
def bigToDec (n : Int) : NumEnc := NumEnc.num n

/-- modL of the source.  JavaScript bigint % truncates toward zero
(Int.tmod); the source adds L back when the remainder is negative. -/
def modL (n : Int) : Int :=
  let x := Int.tmod n LI
  if x < 0 then x + LI else x

/-- commit of the source: value*G + blinding*H, with the zero scalar
handled separately because multiply rejects it; a scalar outside
[1, L) still makes multiply throw (none). -/
def commit (v r : Int) : Option Pt :=
  match (if v = 0 then some Pt.zero else Pt.multiply Gpt v),
        (if r = 0 then some Pt.zero else Pt.multiply Hpt r) with
  | some vP, some rP => some (Pt.add vP rP)
  | _, _ => none

/-- verifyOpening of the source: recompute the commitment and compare,
converting any decode or scalar failure into false. -/
def verifyOpening (commitHex : PointEnc) (v r : Int) : Bool :=
  match pointFromHex commitHex, commit v r with
  | some claimed, some recomputed => decide (claimed = recomputed)
  | _, _ => false

/-- Field size constant for the idealised X25519 model. -/
def XQ : Nat := 57896044618658097711785492504343953926634992332820282019728792003956564819949

/-- Idealised X25519 public key derivation: scalar times the base
point 9, modelled multiplicatively so that shared secrets commute. -/
def xpub (sk : Nat) : Nat := (9 * sk) % XQ

/-- Idealised X25519 shared secret: getSharedSecret sk pk. -/
def xdh (sk pk : Nat) : Nat := (sk * pk) % XQ

/-- Idealised HKDF-SHA256 with the fixed salt and info strings of the
source: a deterministic function of the input key material. -/
def hkdfKey (ikm : Nat) : Nat := ikm

/-- The plaintext opening carried inside an encrypted blob: the JSON
object with decimal strings for value and blinding.  Decimal rendering
round-trips bigints exactly, so the pair is kept directly. -/
structure Opening where
  v : Int
  r : Int
deriving DecidableEq

/-- Idealised AES-GCM ciphertext: an authenticated ciphertext is bound
to its key and nonce and carries its plaintext opaquely. -/
structure AesCt where
  key : Nat
  nonce : Nat
  plain : Opening
deriving DecidableEq

/-- Idealised AES-GCM encryption. -/
def aesGcmEncrypt (key nonce : Nat) (p : Opening) : AesCt :=
  { key := key, nonce := nonce, plain := p }

/-- Idealised AES-GCM decryption: authentication succeeds exactly when
key and nonce match, and then yields the exact plaintext. -/
def aesGcmDecrypt (key nonce : Nat) (c : AesCt) : Option Opening :=
  if c.key = key ∧ c.nonce = nonce then some c.plain else none

/-- The base64 blob ephemeralPublicKey || nonce || ciphertext, or junk
bytes whose structure or authentication tag is broken. -/
inductive EncBlob where
  | blob (epk : Nat) (nonce : Nat) (ct : AesCt) : EncBlob
  | junk (tag : Nat) : EncBlob
deriving DecidableEq

/-- eciesEncrypt of the source: fresh ephemeral keypair, shared secret
against the recipient public key, HKDF, AES-GCM under a fresh nonce,
then concatenation.  Ephemeral secret and nonce are passed explicitly
as the randomness. -/
def eciesEncrypt (pub : Nat) (p : Opening) (eph nonce : Nat) : EncBlob :=
  EncBlob.blob (xpub eph) nonce (aesGcmEncrypt (hkdfKey (xdh eph pub)) nonce p)

/-- eciesDecrypt of the source: split the blob, recompute the shared
secret, rederive the key, authenticated-decrypt; any structural or
authentication failure is none. -/
def eciesDecrypt (sk : Nat) : EncBlob → Option Opening
  | EncBlob.blob epk nonce ct => aesGcmDecrypt (hkdfKey (xdh sk epk)) nonce ct
  | EncBlob.junk _ => none

/-- X25519 keys of a holder.  The parallel ed25519 signing keys of the
source KeyPair are never used by the ledger core and are omitted. -/
structure XKeyPair where
  publicKey : Nat
  secretKey : Nat
deriving DecidableEq

/-- KeyPair of the source schema, restricted to the fields the ledger
core reads: the holder id and the x25519 encryption keys. -/
structure KeyPair where
  id : String
  x25519 : XKeyPair
deriving DecidableEq

/-- LedgerEntry of the source schema. -/
structure LedgerEntry where
  holderId : String
  commit : PointEnc
  openingEncrypted : EncBlob
deriving DecidableEq

/-- AggregateTotal of the source schema: declared total T, declared
blinding sum R, and the aggregate commitment, all in serialized form. -/
structure AggregateTotal where
  T : NumEnc
  R : NumEnc
  commitSum : PointEnc
deriving DecidableEq

/-- LedgerState of the source schema. -/
structure LedgerState where
  version : String
  entries : List LedgerEntry
  total : AggregateTotal
  allowSelfUpdate : Bool
deriving DecidableEq

/-- MintAllocation of the source schema. -/
structure MintAllocation where
  holder : KeyPair
  amount : Int

/-- Randomness drawn while minting one allocation: the 32 blinding
bytes (as a big-endian value), the ephemeral x25519 secret and the
AES-GCM nonce. -/
structure MintEntropy where
  rBytes : Nat
  eph : Nat
  nonce : Nat

/-- Randomness drawn during one self-update, with the same fields. -/
structure UpdateEntropy where
  rBytes : Nat
  eph : Nat
  nonce : Nat

/-- Sum of a list of points, reduce with Point.add from ZERO in the
source. -/
def sumPts (ps : List Pt) : Pt := ps.foldl Pt.add Pt.zero

/-- Decode every stored commitment, entries.map(pointFromHex) in the
source, where the first bad encoding throws: none if any single decode
fails. -/
def decodeAll : List PointEnc → Option (List Pt)
  | [] => some []
  | c :: rest =>
      match pointFromHex c, decodeAll rest with
      | some p, some ps => some (p :: ps)
      | _, _ => none

/-- Loop body of mintPoC: walk the allocations accumulating entries,
the running value total, the running blinding total reduced mod L at
each step, and the running commitment sum. -/
def mintLoop (rnd : Nat → MintEntropy) :
    List MintAllocation → Nat → List LedgerEntry → Int → Int → Pt →
    Option (List LedgerEntry × Int × Int × Pt)
  | [], _, entries, tAcc, rAcc, cAcc => some (entries, tAcc, rAcc, cAcc)
  | alloc :: rest, i, entries, tAcc, rAcc, cAcc =>
      let v : Int := alloc.amount
      let r : Int := modL ((rnd i).rBytes : Int)
      match commit v r with
      | none => none
      | some c =>
          let enc := eciesEncrypt alloc.holder.x25519.publicKey
            { v := v, r := r } (rnd i).eph (rnd i).nonce
          mintLoop rnd rest (i + 1)
            (entries ++ [{ holderId := alloc.holder.id,
                           commit := pointToHex c,
                           openingEncrypted := enc }])
            (tAcc + v) (modL (rAcc + r)) (Pt.add cAcc c)

/-- mintPoC of the source.  Randomness is passed as an indexed stream;
none models the promise rejecting (an allocation amount outside the
scalar range makes commit throw). -/
def mintPoC (allocs : List MintAllocation) (rnd : Nat → MintEntropy)
    (allowSelfUpdate : Bool) : Option LedgerState :=
  match mintLoop rnd allocs 0 [] 0 0 Pt.zero with
  | none => none
  | some (entries, tV, rV, cSum) =>
      some { version := "1",
             entries := entries,
             total := { T := bigToDec tV, R := bigToDec rV,
                        commitSum := pointToHex cSum },
             allowSelfUpdate := allowSelfUpdate }

/-- verifyTotal of the source: parse the stored totals, decode the
stored aggregate commitment, decode and re-sum the per-entry
commitments, compare, then check the aggregate against G*T + H*R.
Every thrown failure is caught and returned as false. -/
def verifyTotal (ledger : LedgerState) : Bool :=
  match decToBig ledger.total.T, decToBig ledger.total.R,
        pointFromHex ledger.total.commitSum,
        decodeAll (ledger.entries.map (fun e => e.commit)) with
  | some tV, some rV, some claimed, some decoded =>
      let recomputed := sumPts decoded
      if claimed = recomputed then
        match Pt.multiply Gpt tV, Pt.multiply Hpt rV with
        | some gT, some hR => decide (claimed = Pt.add gT hR)
        | _, _ => false
      else false
  | _, _, _, _ => false

/-- View of the ledger as one holder sees it.  The others list of the
source carries only 20-character truncated previews of public fields;
the model keeps the holder ids and elides the lossy previews. -/
structure UserView where
  myBalance : Option Int
  myEntryValid : Bool
  publicTotal : Option Int
  othersIds : List String
deriving DecidableEq

/-- getUserView of the source: decrypt and validate the callers own
entry if present, and report the declared total only when verifyTotal
passes. -/
def getUserView (ledger : LedgerState) (me : KeyPair) : UserView :=
  let mine := ledger.entries.find? (fun e => e.holderId == me.id)
  let balancePair : Option Int × Bool :=
    match mine with
    | none => (none, true)
    | some entry =>
        match eciesDecrypt me.x25519.secretKey entry.openingEncrypted with
        | none => (none, false)
        | some op => (some op.v, verifyOpening entry.commit op.v op.r)
  let totalOk := verifyTotal ledger
  { myBalance := balancePair.1,
    myEntryValid := balancePair.2,
    publicTotal := if totalOk then decToBig ledger.total.T else none,
    othersIds := (ledger.entries.filter (fun e => !(e.holderId == me.id))).map
      (fun e => e.holderId) }

/-- Error taxonomy of updateOwnEntry.  The three named errors are the
explicit throws of the source; cryptoError stands for exceptions
raised by the platform libraries (scalar out of range, undecodable
stored point, non-numeric stored total) that propagate uncaught. -/
inductive LedgerErr where
  | permissionDenied
  | notFound
  | decryptionFailure
  | cryptoError
deriving DecidableEq

/-- updateOwnEntry of the source: guard the policy flag, locate the
callers entry, decrypt its opening, build a fresh commitment and
encrypted opening for the new amount, adjust the declared totals, and
re-sum the aggregate commitment from scratch. -/
def updateOwnEntry (ledger : LedgerState) (me : KeyPair) (newAmount : Int)
    (rnd : UpdateEntropy) : Except LedgerErr LedgerState :=
  if !ledger.allowSelfUpdate then Except.error LedgerErr.permissionDenied
  else
    match ledger.entries.findIdx? (fun e => e.holderId == me.id) with
    | none => Except.error LedgerErr.notFound
    | some myIndex =>
        match ledger.entries[myIndex]? with
        | none => Except.error LedgerErr.cryptoError
        | some myEntry =>
            match eciesDecrypt me.x25519.secretKey myEntry.openingEncrypted with
            | none => Except.error LedgerErr.decryptionFailure
            | some oldOpening =>
                let newV : Int := newAmount
                let newR : Int := modL ((rnd.rBytes : Nat) : Int)
                match commit newV newR with
                | none => Except.error LedgerErr.cryptoError
                | some newC =>
                    let newEnc := eciesEncrypt me.x25519.publicKey
                      { v := newV, r := newR } rnd.eph rnd.nonce
                    match decToBig ledger.total.T, decToBig ledger.total.R with
                    | some oldT, some oldRsum =>
                        let newT := oldT - oldOpening.v + newV
                        let newRsum := modL (oldRsum - oldOpening.r + newR)
                        let newEntries := ledger.entries.set myIndex
                          { holderId := me.id,
                            commit := pointToHex newC,
                            openingEncrypted := newEnc }
                        match decodeAll (newEntries.map (fun e => e.commit)) with
                        | none => Except.error LedgerErr.cryptoError
                        | some pts =>
                            Except.ok { ledger with
                              entries := newEntries,
                              total := { T := bigToDec newT,
                                         R := bigToDec newRsum,
                                         commitSum := pointToHex (sumPts pts) } }
                    | _, _ => Except.error LedgerErr.cryptoError

/-- pedersen of the shared crypto utilities: both scalars are reduced
mod L before the zero-guarded multiplications, so the computation
never throws; the result is the hex encoding. -/
def pedersen (v r : Int) : PointEnc :=
  match commit (modL v) (modL r) with
  | some c => pointToHex c
  | none => PointEnc.junk 0

/-- ristrettoAdd of the shared crypto utilities: decode two hex
points, add, re-encode; decoding throws (none) on bad input. -/
def ristrettoAdd (aHex bHex : PointEnc) : Option PointEnc :=
  match pointFromHex aHex, pointFromHex bHex with
  | some a, some b => some (pointToHex (Pt.add a b))
  | _, _ => none

/-- A single-field tamper on a ledger: exactly one of an entry
commitment, total.T, total.R or total.commitSum is replaced by a
different stored value, everything else unchanged. -/
inductive Tamper : LedgerState → LedgerState → Prop where
  | entryCommit (l : LedgerState) (i : Nat) (e : LedgerEntry) (c2 : PointEnc)
      (he : l.entries[i]? = some e) (hne : c2 ≠ e.commit) :
      Tamper l { l with entries := l.entries.set i ⟨e.holderId, c2, e.openingEncrypted⟩ }
  | totalT (l : LedgerState) (t2 : NumEnc) (hne : t2 ≠ l.total.T) :
      Tamper l { l with total := { l.total with T := t2 } }
  | totalR (l : LedgerState) (r2 : NumEnc) (hne : r2 ≠ l.total.R) :
      Tamper l { l with total := { l.total with R := r2 } }
  | commitSum (l : LedgerState) (c2 : PointEnc) (hne : c2 ≠ l.total.commitSum) :
      Tamper l { l with total := { l.total with commitSum := c2 } }

/-- A ledger holding at least one malformed serialized field among
those the verification path deserializes: a non-numeric total, an
undecodable aggregate commitment, or an undecodable entry commitment. -/
inductive MalformedLedger : LedgerState → Prop where
  | badT (l : LedgerState) (h : decToBig l.total.T = none) : MalformedLedger l
  | badR (l : LedgerState) (h : decToBig l.total.R = none) : MalformedLedger l
  | badSum (l : LedgerState) (h : pointFromHex l.total.commitSum = none) :
      MalformedLedger l
  | badEntry (l : LedgerState) (i : Nat) (e : LedgerEntry)
      (he : l.entries[i]? = some e) (hd : pointFromHex e.commit = none) :
      MalformedLedger l

/-- Keypair of the demo holder used by the concrete witnesses. -/
def aliceKP : KeyPair :=
  { id := "alice", x25519 := { publicKey := xpub 11, secretKey := 11 } }

/-- Keypair of a holder with no entry in the witness ledgers. -/
def bobKP : KeyPair :=
  { id := "bob", x25519 := { publicKey := xpub 23, secretKey := 23 } }

/-- Fixed mint randomness for the concrete witnesses. -/
def rndC : Nat → MintEntropy := fun _ => { rBytes := 7, eph := 3, nonce := 13 }

/-- Fixed update randomness for the concrete witnesses. -/
def rndU : UpdateEntropy := { rBytes := 9, eph := 4, nonce := 17 }

/-- A concrete honestly-built single-entry ledger: alice holds value 5
with blinding 7, totals declared accordingly, self-update enabled. -/
def cLedgerHonest : LedgerState :=
  { version := "1",
    entries := [{ holderId := "alice",
                  commit := PointEnc.enc 5 7,
                  openingEncrypted := eciesEncrypt (xpub 11) ⟨5, 7⟩ 3 13 }],
    total := { T := NumEnc.num 5, R := NumEnc.num 7, commitSum := PointEnc.enc 5 7 },
    allowSelfUpdate := true }

/-- A concrete ledger that passes verifyTotal although the encrypted
opening of alice disagrees with her stored commitment: the commitment
and the declared totals commit to value 5, but the ciphertext opens to
value 4 with the same blinding. -/
def cLedgerMismatch : LedgerState :=
  { version := "1",
    entries := [{ holderId := "alice",
                  commit := PointEnc.enc 5 7,
                  openingEncrypted := eciesEncrypt (xpub 11) ⟨4, 7⟩ 3 13 }],
    total := { T := NumEnc.num 5, R := NumEnc.num 7, commitSum := PointEnc.enc 5 7 },
    allowSelfUpdate := true }

/-- A concrete ledger whose only entry carries a junk encrypted blob
that fails authentication. -/
def cLedgerBadBlob : LedgerState :=
  { version := "1",
    entries := [{ holderId := "alice",
                  commit := PointEnc.enc 5 7,
                  openingEncrypted := EncBlob.junk 0 }],
    total := { T := NumEnc.num 5, R := NumEnc.num 7, commitSum := PointEnc.enc 5 7 },
    allowSelfUpdate := true }

/-- Coordinates of a point inside ZMod L, the bridge used to reason
about the group algebra of the formal model. -/
def zpair (p : Pt) : ZMod L × ZMod L := ((p.val.1 : ZMod L), (p.val.2 : ZMod L))

/-! Basic facts about the scalar field and the point model. -/

theorem L_pos : 0 < L := by decide

theorem LI_pos : 0 < LI := by decide

theorem neg_lt_tmod (a : Int) {b : Int} (hb : 0 < b) : -b < Int.tmod a b := by
  rcases Int.le_or_lt 0 a with ha | ha
  · have h0 : 0 ≤ Int.tmod a b := Int.tmod_nonneg b ha
    omega
  · have h1 : Int.tmod (-a) b = -Int.tmod a b := by
      rw [Int.tmod_def, Int.tmod_def, Int.neg_tdiv]
      ring
    have h2 : Int.tmod (-a) b < b := Int.tmod_lt_of_pos _ hb
    have h3 : 0 ≤ Int.tmod (-a) b := Int.tmod_nonneg b (by omega)
    omega

theorem modL_eq_emod (n : Int) : modL n = n % LI := by
  have hL : 0 < LI := LI_pos
  have key : n % LI = Int.tmod n LI % LI := by
    conv_lhs => rw [← Int.tmod_add_tdiv n LI]
    rw [Int.add_mul_emod_self_left]
  have hlow : -LI < Int.tmod n LI := neg_lt_tmod n hL
  have hhigh : Int.tmod n LI < LI := Int.tmod_lt_of_pos n hL
  unfold modL
  by_cases h : Int.tmod n LI < 0
  · simp only [h, if_true]
    rw [key]
    have step : Int.tmod n LI % LI = (Int.tmod n LI + LI * 1) % LI := by
      rw [Int.add_mul_emod_self_left]
    rw [step, Int.mul_one, Int.emod_eq_of_lt (by omega) (by omega)]
  · simp only [h, if_false]
    rw [key, Int.emod_eq_of_lt (by omega) (by omega)]

theorem modL_nonneg (n : Int) : 0 ≤ modL n := by
  rw [modL_eq_emod]
  exact Int.emod_nonneg n (by decide)

theorem modL_lt (n : Int) : modL n < LI := by
  rw [modL_eq_emod]
  exact Int.emod_lt_of_pos n LI_pos

theorem intCast_modL (n : Int) : ((modL n : Int) : ZMod L) = (n : ZMod L) := by
  rw [modL_eq_emod]
  show (((n % ((L : Nat) : Int)) : Int) : ZMod L) = (n : ZMod L)
  exact ZMod.intCast_mod n L

theorem zpair_zero : zpair Pt.zero = 0 := by
  simp [zpair, Pt.zero, Prod.ext_iff]

theorem zpair_add (p q : Pt) : zpair (Pt.add p q) = zpair p + zpair q := by
  simp only [zpair, Pt.add, Prod.ext_iff, Prod.fst_add, Prod.snd_add]
  constructor
  · rw [ZMod.natCast_mod, Nat.cast_add]
  · rw [ZMod.natCast_mod, Nat.cast_add]

theorem zpair_inj {p q : Pt} (h : zpair p = zpair q) : p = q := by
  obtain ⟨hp1, hp2⟩ := p.property
  obtain ⟨hq1, hq2⟩ := q.property
  apply Subtype.ext
  have h1 : (p.val.1 : ZMod L) = (q.val.1 : ZMod L) := congrArg Prod.fst h
  have h2 : (p.val.2 : ZMod L) = (q.val.2 : ZMod L) := congrArg Prod.snd h
  have e1 : p.val.1 = q.val.1 := by
    have := congrArg ZMod.val h1
    rwa [ZMod.val_cast_of_lt hp1, ZMod.val_cast_of_lt hq1] at this
  have e2 : p.val.2 = q.val.2 := by
    have := congrArg ZMod.val h2
    rwa [ZMod.val_cast_of_lt hp2, ZMod.val_cast_of_lt hq2] at this
  exact Prod.ext e1 e2

/-! Scalar multiplication, commitments and encodings. -/

theorem LI_def : LI = (L : Int) := rfl

theorem multiply_range {p : Pt} {s : Int} {q : Pt}
    (h : Pt.multiply p s = some q) : 1 ≤ s ∧ s < LI := by
  unfold Pt.multiply at h
  by_cases hc : 1 ≤ s ∧ s < LI
  · exact hc
  · simp [hc] at h

theorem natCast_toNat_zmod {s : Int} (hs : 0 ≤ s) :
    ((s.toNat : Nat) : ZMod L) = (s : ZMod L) := by
  rw [← Int.cast_natCast, Int.toNat_of_nonneg hs]

theorem multiply_G_val {s : Int} {q : Pt}
    (h : Pt.multiply Gpt s = some q) : q.val = (s.toNat, 0) := by
  obtain ⟨h1, h2⟩ := multiply_range h
  unfold Pt.multiply at h
  rw [if_pos ⟨h1, h2⟩] at h
  have hlt : s.toNat < L := by
    rw [LI_def] at h2
    omega
  have := Option.some.inj h
  rw [← this]
  show ((s.toNat * Gpt.val.1) % L, (s.toNat * Gpt.val.2) % L) = (s.toNat, 0)
  show ((s.toNat * 1) % L, (s.toNat * 0) % L) = (s.toNat, 0)
  rw [Nat.mul_one, Nat.mul_zero, Nat.zero_mod, Nat.mod_eq_of_lt hlt]

theorem multiply_H_val {s : Int} {q : Pt}
    (h : Pt.multiply Hpt s = some q) : q.val = (0, s.toNat) := by
  obtain ⟨h1, h2⟩ := multiply_range h
  unfold Pt.multiply at h
  rw [if_pos ⟨h1, h2⟩] at h
  have hlt : s.toNat < L := by
    rw [LI_def] at h2
    omega
  have := Option.some.inj h
  rw [← this]
  show ((s.toNat * Hpt.val.1) % L, (s.toNat * Hpt.val.2) % L) = (0, s.toNat)
  show ((s.toNat * 0) % L, (s.toNat * 1) % L) = (0, s.toNat)
  rw [Nat.mul_one, Nat.mul_zero, Nat.zero_mod, Nat.mod_eq_of_lt hlt]

theorem zpair_multiply_G {s : Int} {q : Pt}
    (h : Pt.multiply Gpt s = some q) : zpair q = ((s : ZMod L), 0) := by
  obtain ⟨h1, _⟩ := multiply_range h
  have hv := multiply_G_val h
  unfold zpair
  rw [hv]
  simp only [Prod.mk.injEq, Nat.cast_zero]
  exact ⟨natCast_toNat_zmod (by omega), trivial⟩

theorem zpair_multiply_H {s : Int} {q : Pt}
    (h : Pt.multiply Hpt s = some q) : zpair q = (0, (s : ZMod L)) := by
  obtain ⟨h1, _⟩ := multiply_range h
  have hv := multiply_H_val h
  unfold zpair
  rw [hv]
  simp only [Prod.mk.injEq, Nat.cast_zero]
  exact ⟨trivial, natCast_toNat_zmod (by omega)⟩

theorem multiply_some (p : Pt) {s : Int} (h1 : 1 ≤ s) (h2 : s < LI) :
    ∃ q, Pt.multiply p s = some q := by
  unfold Pt.multiply
  rw [if_pos ⟨h1, h2⟩]
  exact ⟨_, rfl⟩

theorem commit_zpair {v r : Int} {c : Pt} (h : commit v r = some c) :
    zpair c = ((v : ZMod L), (r : ZMod L)) := by
  unfold commit at h
  have hv : ∀ vP, (if v = 0 then some Pt.zero else Pt.multiply Gpt v) = some vP →
      zpair vP = ((v : ZMod L), 0) := by
    intro vP hvP
    by_cases h0 : v = 0
    · rw [if_pos h0] at hvP
      cases Option.some.inj hvP
      rw [zpair_zero, h0]
      simp
    · rw [if_neg h0] at hvP
      exact zpair_multiply_G hvP
  have hr : ∀ rP, (if r = 0 then some Pt.zero else Pt.multiply Hpt r) = some rP →
      zpair rP = (0, (r : ZMod L)) := by
    intro rP hrP
    by_cases h0 : r = 0
    · rw [if_pos h0] at hrP
      cases Option.some.inj hrP
      rw [zpair_zero, h0]
      simp
    · rw [if_neg h0] at hrP
      exact zpair_multiply_H hrP
  revert h
  cases hvc : (if v = 0 then some Pt.zero else Pt.multiply Gpt v) with
  | none => intro h; cases h
  | some vP =>
    cases hrc : (if r = 0 then some Pt.zero else Pt.multiply Hpt r) with
    | none => intro h; cases h
    | some rP =>
      intro h
      cases Option.some.inj h
      rw [zpair_add, hv vP hvc, hr rP hrc, Prod.mk_add_mk, add_zero, zero_add]

theorem commit_some {v r : Int} (hv1 : 0 ≤ v) (hv2 : v < LI)
    (hr1 : 0 ≤ r) (hr2 : r < LI) : ∃ c, commit v r = some c := by
  unfold commit
  have hvP : ∃ vP, (if v = 0 then some Pt.zero else Pt.multiply Gpt v) = some vP := by
    by_cases h0 : v = 0
    · rw [if_pos h0]; exact ⟨_, rfl⟩
    · rw [if_neg h0]
      exact multiply_some Gpt (by omega) hv2
  have hrP : ∃ rP, (if r = 0 then some Pt.zero else Pt.multiply Hpt r) = some rP := by
    by_cases h0 : r = 0
    · rw [if_pos h0]; exact ⟨_, rfl⟩
    · rw [if_neg h0]
      exact multiply_some Hpt (by omega) hr2
  obtain ⟨vP, hv⟩ := hvP
  obtain ⟨rP, hr⟩ := hrP
  rw [hv, hr]
  exact ⟨_, rfl⟩

theorem pointFromHex_pointToHex (p : Pt) : pointFromHex (pointToHex p) = some p := by
  simp only [pointFromHex, pointToHex]
  rw [dif_pos p.property]

theorem pointToHex_of_fromHex {c : PointEnc} {p : Pt}
    (h : pointFromHex c = some p) : c = pointToHex p := by
  cases c with
  | junk t => cases h
  | enc a b =>
    simp only [pointFromHex] at h
    by_cases hab : a < L ∧ b < L
    · rw [dif_pos hab] at h
      cases Option.some.inj h
      rfl
    · rw [dif_neg hab] at h
      cases h

/-! Decoding lists of stored commitments. -/

theorem decodeAll_length {cs : List PointEnc} {ps : List Pt}
    (h : decodeAll cs = some ps) : ps.length = cs.length := by
  induction cs generalizing ps with
  | nil =>
    unfold decodeAll at h
    cases Option.some.inj h
    rfl
  | cons c rest ih =>
    unfold decodeAll at h
    cases hc : pointFromHex c with
    | none => rw [hc] at h; cases h
    | some p =>
      rw [hc] at h
      cases hr : decodeAll rest with
      | none => rw [hr] at h; cases h
      | some ps0 =>
        rw [hr] at h
        cases Option.some.inj h
        simp [ih hr]

theorem decodeAll_getElem {cs : List PointEnc} {ps : List Pt}
    (h : decodeAll cs = some ps) {j : Nat} {c : PointEnc}
    (hc : cs[j]? = some c) : ∃ p, ps[j]? = some p ∧ pointFromHex c = some p := by
  induction cs generalizing ps j with
  | nil => cases hc
  | cons c0 rest ih =>
    unfold decodeAll at h
    cases hc0 : pointFromHex c0 with
    | none => rw [hc0] at h; cases h
    | some p0 =>
      rw [hc0] at h
      cases hr : decodeAll rest with
      | none => rw [hr] at h; cases h
      | some ps0 =>
        rw [hr] at h
        cases Option.some.inj h
        cases j with
        | zero =>
          simp only [List.getElem?_cons_zero] at hc
          obtain rfl := Option.some.inj hc
          exact ⟨p0, by simp, hc0⟩
        | succ j0 =>
          simp only [List.getElem?_cons_succ] at hc ⊢
          exact ih hr hc

theorem decodeAll_set {cs : List PointEnc} {ps : List Pt}
    (h : decodeAll cs = some ps) {j : Nat} {c2 : PointEnc} {p2 : Pt}
    (hc : pointFromHex c2 = some p2) :
    decodeAll (cs.set j c2) = some (ps.set j p2) := by
  induction cs generalizing ps j with
  | nil =>
    unfold decodeAll at h
    cases Option.some.inj h
    simp [decodeAll]
  | cons c0 rest ih =>
    unfold decodeAll at h
    cases hc0 : pointFromHex c0 with
    | none => rw [hc0] at h; cases h
    | some p0 =>
      rw [hc0] at h
      cases hr : decodeAll rest with
      | none => rw [hr] at h; cases h
      | some ps0 =>
        rw [hr] at h
        cases Option.some.inj h
        cases j with
        | zero =>
          simp only [List.set_cons_zero]
          unfold decodeAll
          rw [hc, hr]
        | succ j0 =>
          simp only [List.set_cons_succ]
          unfold decodeAll
          rw [hc0, ih hr]

theorem decodeAll_none {cs : List PointEnc} {j : Nat} {c : PointEnc}
    (hc : cs[j]? = some c) (hd : pointFromHex c = none) :
    decodeAll cs = none := by
  induction cs generalizing j with
  | nil => cases hc
  | cons c0 rest ih =>
    cases j with
    | zero =>
      simp only [List.getElem?_cons_zero] at hc
      obtain rfl := Option.some.inj hc
      unfold decodeAll
      rw [hd]
    | succ j0 =>
      simp only [List.getElem?_cons_succ] at hc
      unfold decodeAll
      rw [ih hc]
      cases pointFromHex c0 <;> rfl

/-! Sums of points through the ZMod bridge. -/

theorem zpair_foldl (ps : List Pt) (z : Pt) :
    zpair (ps.foldl Pt.add z) = zpair z + (ps.map zpair).sum := by
  induction ps generalizing z with
  | nil => simp
  | cons p rest ih =>
    simp only [List.foldl_cons, List.map_cons, List.sum_cons]
    rw [ih, zpair_add]
    abel

theorem zpair_sumPts (ps : List Pt) : zpair (sumPts ps) = (ps.map zpair).sum := by
  unfold sumPts
  rw [zpair_foldl, zpair_zero, zero_add]

theorem list_sum_set {M : Type} [AddCommMonoid M] (l : List M) (j : Nat)
    (a b : M) (hj : l[j]? = some a) : (l.set j b).sum + a = l.sum + b := by
  induction l generalizing j with
  | nil => cases hj
  | cons x rest ih =>
    cases j with
    | zero =>
      simp only [List.getElem?_cons_zero] at hj
      obtain rfl := Option.some.inj hj
      simp only [List.set_cons_zero, List.sum_cons]
      abel
    | succ j0 =>
      simp only [List.getElem?_cons_succ] at hj
      simp only [List.set_cons_succ, List.sum_cons]
      have := ih j0 hj
      calc x + (rest.set j0 b).sum + a = x + ((rest.set j0 b).sum + a) := by abel
        _ = x + (rest.sum + b) := by rw [this]
        _ = x + rest.sum + b := by abel

theorem zpair_sumPts_set {ps : List Pt} {j : Nat} {pj : Pt} (p2 : Pt)
    (hj : ps[j]? = some pj) :
    zpair (sumPts (ps.set j p2)) + zpair pj = zpair (sumPts ps) + zpair p2 := by
  rw [zpair_sumPts, zpair_sumPts, List.map_set]
  exact list_sum_set (ps.map zpair) j (zpair pj) (zpair p2)
    (by rw [List.getElem?_map, hj, Option.map_some'])

/-! Locating an entry by holder id. -/

theorem findIdx?_found {α : Type} {p : α → Bool} {l : List α} {i : Nat}
    (h : l.findIdx? p = some i) : ∃ x, l[i]? = some x ∧ p x = true := by
  induction l generalizing i with
  | nil => cases h
  | cons x rest ih =>
    rw [List.findIdx?_cons] at h
    by_cases hp : p x
    · rw [if_pos hp] at h
      obtain rfl := Option.some.inj h
      exact ⟨x, by simp, hp⟩
    · rw [if_neg hp] at h
      rw [List.findIdx?_succ] at h
      cases hr : rest.findIdx? p with
      | none => rw [hr] at h; cases h
      | some i0 =>
        rw [hr] at h
        cases Option.some.inj h
        obtain ⟨y, hy1, hy2⟩ := ih hr
        exact ⟨y, by simpa using hy1, hy2⟩

theorem find?_set_found {α : Type} {p : α → Bool} {l : List α} {i : Nat}
    (h : l.findIdx? p = some i) {y : α} (hy : p y = true) :
    (l.set i y).find? p = some y := by
  induction l generalizing i with
  | nil => cases h
  | cons x rest ih =>
    rw [List.findIdx?_cons] at h
    by_cases hp : p x
    · rw [if_pos hp] at h
      cases Option.some.inj h
      simp only [List.set_cons_zero]
      exact List.find?_cons_of_pos _ hy
    · rw [if_neg hp] at h
      rw [List.findIdx?_succ] at h
      cases hr : rest.findIdx? p with
      | none => rw [hr] at h; cases h
      | some i0 =>
        rw [hr] at h
        cases Option.some.inj h
        simp only [List.set_cons_succ]
        rw [List.find?_cons_of_neg _ hp]
        exact ih hr

/-! The hybrid-encryption round trip. -/

theorem xdh_comm (a b : Nat) : xdh a (xpub b) = xdh b (xpub a) := by
  unfold xdh xpub
  have h1 : a * (9 * b % XQ) % XQ = a * (9 * b) % XQ :=
    Nat.ModEq.mul_left a ((9 * b).mod_modEq XQ)
  have h2 : b * (9 * a % XQ) % XQ = b * (9 * a) % XQ :=
    Nat.ModEq.mul_left b ((9 * a).mod_modEq XQ)
  rw [h1, h2]
  ring_nf

theorem eciesDecrypt_eciesEncrypt (sk eph nonce : Nat) (o : Opening) :
    eciesDecrypt sk (eciesEncrypt (xpub sk) o eph nonce) = some o := by
  show aesGcmDecrypt (hkdfKey (xdh sk (xpub eph))) nonce
    (aesGcmEncrypt (hkdfKey (xdh eph (xpub sk))) nonce o) = some o
  rw [xdh_comm sk eph]
  unfold aesGcmDecrypt aesGcmEncrypt
  rw [if_pos ⟨rfl, rfl⟩]

/-! Unfolding lemmas for the view layer. -/

theorem getUserView_publicTotal_none {l : LedgerState} {me : KeyPair}
    (h : verifyTotal l = false) : (getUserView l me).publicTotal = none := by
  unfold getUserView
  rw [h]
  simp

theorem getUserView_publicTotal_some {l : LedgerState} {me : KeyPair}
    (h : verifyTotal l = true) :
    (getUserView l me).publicTotal = decToBig l.total.T := by
  unfold getUserView
  rw [h]
  simp

theorem getUserView_noEntry {l : LedgerState} {me : KeyPair}
    (hf : l.entries.find? (fun e => e.holderId == me.id) = none) :
    (getUserView l me).myBalance = none ∧ (getUserView l me).myEntryValid = true := by
  unfold getUserView
  rw [hf]
  exact ⟨rfl, rfl⟩

theorem getUserView_decrypted (l : LedgerState) (me : KeyPair)
    {entry : LedgerEntry} {op : Opening}
    (hf : l.entries.find? (fun e => e.holderId == me.id) = some entry)
    (hd : eciesDecrypt me.x25519.secretKey entry.openingEncrypted = some op) :
    (getUserView l me).myBalance = some op.v ∧
    (getUserView l me).myEntryValid = verifyOpening entry.commit op.v op.r := by
  simp [getUserView, hf, hd]

theorem getUserView_decFail {l : LedgerState} {me : KeyPair}
    {entry : LedgerEntry}
    (hf : l.entries.find? (fun e => e.holderId == me.id) = some entry)
    (hd : eciesDecrypt me.x25519.secretKey entry.openingEncrypted = none) :
    (getUserView l me).myBalance = none ∧ (getUserView l me).myEntryValid = false := by
  simp [getUserView, hf, hd]

/-! Characterisation of verifyTotal. -/

theorem verifyTotal_true_iff (l : LedgerState) :
    verifyTotal l = true ↔
    ∃ tV rV claimed ps gT hR,
      decToBig l.total.T = some tV ∧
      decToBig l.total.R = some rV ∧
      pointFromHex l.total.commitSum = some claimed ∧
      decodeAll (l.entries.map (fun e => e.commit)) = some ps ∧
      claimed = sumPts ps ∧
      Pt.multiply Gpt tV = some gT ∧
      Pt.multiply Hpt rV = some hR ∧
      claimed = Pt.add gT hR := by
  constructor
  · intro h
    unfold verifyTotal at h
    cases hT : decToBig l.total.T with
    | none => rw [hT] at h; cases h
    | some tV =>
    cases hRv : decToBig l.total.R with
    | none => rw [hT, hRv] at h; cases h
    | some rV =>
    cases hC : pointFromHex l.total.commitSum with
    | none => rw [hT, hRv, hC] at h; cases h
    | some claimed =>
    cases hD : decodeAll (l.entries.map (fun e => e.commit)) with
    | none => rw [hT, hRv, hC, hD] at h; cases h
    | some ps =>
    rw [hT, hRv, hC, hD] at h
    simp only [] at h
    by_cases heq : claimed = sumPts ps
    · rw [if_pos heq] at h
      cases hG : Pt.multiply Gpt tV with
      | none => rw [hG] at h; cases hH : Pt.multiply Hpt rV <;> rw [hH] at h <;> cases h
      | some gT =>
      cases hH : Pt.multiply Hpt rV with
      | none => rw [hG, hH] at h; cases h
      | some hR =>
      rw [hG, hH] at h
      exact ⟨tV, rV, claimed, ps, gT, hR, rfl, rfl, rfl, rfl, heq, hG, hH,
        of_decide_eq_true h⟩
    · rw [if_neg heq] at h
      cases h
  · rintro ⟨tV, rV, claimed, ps, gT, hR, hT, hRv, hC, hD, heq, hG, hH, hadd⟩
    unfold verifyTotal
    rw [hT, hRv, hC, hD]
    simp only []
    rw [if_pos heq, hG, hH]
    exact decide_eq_true hadd

/-! Characterisation of updateOwnEntry. -/

theorem updateOwnEntry_notAllowed {l : LedgerState} {me : KeyPair} {amt : Int}
    {rnd : UpdateEntropy} (h : l.allowSelfUpdate = false) :
    updateOwnEntry l me amt rnd = Except.error LedgerErr.permissionDenied := by
  unfold updateOwnEntry
  rw [h]
  rfl

theorem updateOwnEntry_notFound {l : LedgerState} {me : KeyPair} {amt : Int}
    {rnd : UpdateEntropy} (hAl : l.allowSelfUpdate = true)
    (hFi : l.entries.findIdx? (fun e => e.holderId == me.id) = none) :
    updateOwnEntry l me amt rnd = Except.error LedgerErr.notFound := by
  unfold updateOwnEntry
  simp only [hAl, Bool.not_true, Bool.false_eq_true, if_false, hFi]

theorem updateOwnEntry_decFail {l : LedgerState} {me : KeyPair} {amt : Int}
    {rnd : UpdateEntropy} {i : Nat} {myEntry : LedgerEntry}
    (hAl : l.allowSelfUpdate = true)
    (hFi : l.entries.findIdx? (fun e => e.holderId == me.id) = some i)
    (hGe : l.entries[i]? = some myEntry)
    (hDe : eciesDecrypt me.x25519.secretKey myEntry.openingEncrypted = none) :
    updateOwnEntry l me amt rnd = Except.error LedgerErr.decryptionFailure := by
  unfold updateOwnEntry
  simp only [hAl, Bool.not_true, Bool.false_eq_true, if_false, hFi, hGe, hDe]

theorem updateOwnEntry_ok {l : LedgerState} {me : KeyPair} {amt : Int}
    {rnd : UpdateEntropy} {i : Nat} {myEntry : LedgerEntry} {op : Opening}
    {newC : Pt} {oldT oldRsum : Int} {pts : List Pt}
    (hAl : l.allowSelfUpdate = true)
    (hFi : l.entries.findIdx? (fun e => e.holderId == me.id) = some i)
    (hGe : l.entries[i]? = some myEntry)
    (hDe : eciesDecrypt me.x25519.secretKey myEntry.openingEncrypted = some op)
    (hCo : commit amt (modL ((rnd.rBytes : Nat) : Int)) = some newC)
    (hT : decToBig l.total.T = some oldT)
    (hR : decToBig l.total.R = some oldRsum)
    (hDa : decodeAll ((l.entries.set i
      ⟨me.id, pointToHex newC,
        eciesEncrypt me.x25519.publicKey ⟨amt, modL ((rnd.rBytes : Nat) : Int)⟩
          rnd.eph rnd.nonce⟩).map (fun e => e.commit)) = some pts) :
    updateOwnEntry l me amt rnd = Except.ok { l with
      entries := l.entries.set i
        ⟨me.id, pointToHex newC,
          eciesEncrypt me.x25519.publicKey ⟨amt, modL ((rnd.rBytes : Nat) : Int)⟩
            rnd.eph rnd.nonce⟩,
      total := { T := bigToDec (oldT - op.v + amt),
                 R := bigToDec (modL (oldRsum - op.r + modL ((rnd.rBytes : Nat) : Int))),
                 commitSum := pointToHex (sumPts pts) } } := by
  unfold updateOwnEntry
  simp only [hAl, Bool.not_true, Bool.false_eq_true, if_false, hFi, hGe, hDe,
    hCo, hT, hR, hDa]

theorem updateOwnEntry_ok_inv {l : LedgerState} {me : KeyPair} {amt : Int}
    {rnd : UpdateEntropy} {l2 : LedgerState}
    (h : updateOwnEntry l me amt rnd = Except.ok l2) :
    ∃ i e2, l.entries.findIdx? (fun e => e.holderId == me.id) = some i ∧
      e2.holderId = me.id ∧
      l2.version = l.version ∧ l2.allowSelfUpdate = l.allowSelfUpdate ∧
      l2.entries = l.entries.set i e2 := by
  unfold updateOwnEntry at h
  cases hAl : l.allowSelfUpdate with
  | false => rw [hAl] at h; exact Except.noConfusion h
  | true =>
  simp only [hAl, Bool.not_true, Bool.false_eq_true, if_false] at h
  cases hFi : l.entries.findIdx? (fun e => e.holderId == me.id) with
  | none => simp only [hFi] at h; exact Except.noConfusion h
  | some i =>
  simp only [hFi] at h
  cases hGe : l.entries[i]? with
  | none => simp only [hGe] at h; exact Except.noConfusion h
  | some myEntry =>
  simp only [hGe] at h
  cases hDe : eciesDecrypt me.x25519.secretKey myEntry.openingEncrypted with
  | none => simp only [hDe] at h; exact Except.noConfusion h
  | some op =>
  simp only [hDe] at h
  cases hCo : commit amt (modL ((rnd.rBytes : Nat) : Int)) with
  | none => simp only [hCo] at h; exact Except.noConfusion h
  | some newC =>
  simp only [hCo] at h
  cases hT : decToBig l.total.T with
  | none =>
    simp only [hT] at h
    exact Except.noConfusion h
  | some oldT =>
  simp only [hT] at h
  cases hRv : decToBig l.total.R with
  | none => simp only [hRv] at h; exact Except.noConfusion h
  | some oldRsum =>
  simp only [hRv] at h
  cases hDa : decodeAll ((l.entries.set i
      ⟨me.id, pointToHex newC,
        eciesEncrypt me.x25519.publicKey ⟨amt, modL ((rnd.rBytes : Nat) : Int)⟩
          rnd.eph rnd.nonce⟩).map (fun e => e.commit)) with
  | none => simp only [hDa] at h; exact Except.noConfusion h
  | some pts =>
  simp only [hDa] at h
  have h2 := Except.ok.inj h
  refine ⟨i, ⟨me.id, pointToHex newC,
    eciesEncrypt me.x25519.publicKey ⟨amt, modL ((rnd.rBytes : Nat) : Int)⟩
      rnd.eph rnd.nonce⟩, rfl, rfl, ?_, ?_, ?_⟩ <;> rw [← h2]

/-! Further inversion helpers. -/

theorem decToBig_eq_some {x : NumEnc} {n : Int} (h : decToBig x = some n) :
    x = NumEnc.num n := by
  cases x with
  | num m =>
    unfold decToBig at h
    rw [Option.some.inj h]
  | junk t => cases h

theorem zmod_intCast_inj {a b : Int} (ha1 : 0 ≤ a) (ha2 : a < LI)
    (hb1 : 0 ≤ b) (hb2 : b < LI)
    (h : (a : ZMod L) = (b : ZMod L)) : a = b := by
  have haL : a.toNat < L := by rw [LI_def] at ha2; omega
  have hbL : b.toNat < L := by rw [LI_def] at hb2; omega
  have ha3 : ((a.toNat : Nat) : ZMod L) = (a : ZMod L) := natCast_toNat_zmod ha1
  have hb3 : ((b.toNat : Nat) : ZMod L) = (b : ZMod L) := natCast_toNat_zmod hb1
  have h4 : ((a.toNat : Nat) : ZMod L) = ((b.toNat : Nat) : ZMod L) := by
    rw [ha3, hb3, h]
  have h5 := congrArg ZMod.val h4
  rw [ZMod.val_cast_of_lt haL, ZMod.val_cast_of_lt hbL] at h5
  omega

theorem verifyOpening_true {c : PointEnc} {v r : Int}
    (h : verifyOpening c v r = true) :
    ∃ q, pointFromHex c = some q ∧ commit v r = some q := by
  unfold verifyOpening at h
  split at h
  · rename_i claimed recomputed hc hr
    have h2 : claimed = recomputed := of_decide_eq_true h
    exact ⟨claimed, hc, by rw [hr, h2]⟩
  · cases h

theorem findIdx?_bound {α : Type} {p : α → Bool} {l : List α} {i : Nat}
    (h : l.findIdx? p = some i) : i < l.length := by
  obtain ⟨x, hx, _⟩ := findIdx?_found h
  exact (List.getElem?_eq_some_iff.mp hx).1

theorem decodeAll_set_inv {cs : List PointEnc} {ps ps2 : List Pt} {j : Nat}
    {c2 : PointEnc} (h : decodeAll cs = some ps)
    (h2 : decodeAll (cs.set j c2) = some ps2) (hj : j < cs.length) :
    ∃ p2, pointFromHex c2 = some p2 ∧ ps2 = ps.set j p2 := by
  have hset : (cs.set j c2)[j]? = some c2 := by
    rw [List.getElem?_set_self (by simpa using hj)]
  obtain ⟨p2, hp2a, hp2b⟩ := decodeAll_getElem h2 hset
  refine ⟨p2, hp2b, ?_⟩
  have hlen : ps.length = cs.length := decodeAll_length h
  have hlen2 : ps2.length = cs.length := by
    rw [decodeAll_length h2, List.length_set]
  apply List.ext_getElem?
  intro n
  by_cases hn : n = j
  · subst hn
    rw [hp2a, List.getElem?_set_self (by omega)]
  · rw [List.getElem?_set_ne (fun hh => hn hh.symm)]
    cases hcn : cs[n]? with
    | none =>
      have hlenn : cs.length ≤ n := List.getElem?_eq_none_iff.mp hcn
      have e1 : ps2[n]? = none := List.getElem?_eq_none_iff.mpr (by omega)
      have e2 : ps[n]? = none := List.getElem?_eq_none_iff.mpr (by omega)
      rw [e1, e2]
    | some cn =>
      have hsn : (cs.set j c2)[n]? = some cn := by
        rw [List.getElem?_set_ne (fun hh => hn hh.symm)]
        exact hcn
      obtain ⟨pn, hpn1, hpn2⟩ := decodeAll_getElem h hcn
      obtain ⟨pn2, hpn21, hpn22⟩ := decodeAll_getElem h2 hsn
      rw [hpn1, hpn21]
      rw [hpn2] at hpn22
      rw [Option.some.inj hpn22]

/-! Claim theorems. -/

/-- C1: the claim states that for every allocation list (a zero-amount
entry included) the minted ledger satisfies verifyTotal = true.  The
code refutes this: minting the single allocation (alice, 0) succeeds,
because commit guards the zero scalar, but verifyTotal then evaluates
G multiplied by the zero total, which the curve library rejects, the
exception is caught, and false is returned.  This theorem evaluates
the code at that failing input: the mint succeeds and verification of
the honestly minted ledger reports false. -/
theorem spec_c1_zero_total_mint_fails_verification :
    (mintPoC [⟨aliceKP, 0⟩] rndC true).map verifyTotal = some false := by
  decide

/-- C5: for every valid encryption keypair, here any secret key with
its derived public key, and every opening, decryptOpening inverts
encryptOpening exactly, for every choice of ephemeral key and nonce. -/
theorem spec_c5_encryption_round_trip (sk eph nonce : Nat) (o : Opening) :
    eciesDecrypt sk (eciesEncrypt (xpub sk) o eph nonce) = some o :=
  eciesDecrypt_eciesEncrypt sk eph nonce o

/-- C10: when the caller id matches no entry of the ledger,
getHolderView reports balance none together with balanceValid true;
the validity flag is reserved for failures of an existing entry. -/
theorem spec_c10_no_entry_view (l : LedgerState) (me : KeyPair)
    (h : ∀ e ∈ l.entries, e.holderId ≠ me.id) :
    (getUserView l me).myBalance = none ∧ (getUserView l me).myEntryValid = true := by
  have hf : l.entries.find? (fun e => e.holderId == me.id) = none := by
    rw [List.find?_eq_none]
    intro x hx
    simp only [beq_iff_eq]
    exact h x hx
  exact getUserView_noEntry hf

/-- Witness for C10 at a concrete ledger and absent holder. -/
theorem spec_c10_witness :
    (getUserView cLedgerHonest bobKP).myBalance = none ∧
    (getUserView cLedgerHonest bobKP).myEntryValid = true :=
  spec_c10_no_entry_view cLedgerHonest bobKP (by decide)

/-- C9: a successful updateOwnEntry leaves version and the policy flag
unchanged, keeps the list length, keeps every entry other than the
targeted one identical in place, and replaces only the entry of the
caller; the input ledger itself is an immutable value in this pure
model. -/
theorem spec_c9_copy_on_write_frame (l : LedgerState) (me : KeyPair)
    (amt : Int) (rnd : UpdateEntropy) (l2 : LedgerState)
    (h : updateOwnEntry l me amt rnd = Except.ok l2) :
    l2.version = l.version ∧ l2.allowSelfUpdate = l.allowSelfUpdate ∧
    l2.entries.length = l.entries.length ∧
    ∃ i, l.entries.findIdx? (fun e => e.holderId == me.id) = some i ∧
      (∀ j, j ≠ i → l2.entries[j]? = l.entries[j]?) ∧
      ∃ e2, l2.entries[i]? = some e2 ∧ e2.holderId = me.id := by
  obtain ⟨i, e2, hFi, hid, hver, hal, hent⟩ := updateOwnEntry_ok_inv h
  have hi : i < l.entries.length := findIdx?_bound hFi
  refine ⟨hver, hal, by rw [hent, List.length_set], i, hFi, ?_, e2, ?_, hid⟩
  · intro j hj
    rw [hent, List.getElem?_set_ne (fun hh => hj hh.symm)]
  · rw [hent, List.getElem?_set_self (by simpa using hi)]

/-- Witness for C9: the frame conditions at a concrete successful
update. -/
theorem spec_c9_witness :
    ((updateOwnEntry cLedgerHonest aliceKP 10 rndU).toOption.getD cLedgerHonest).version
      = cLedgerHonest.version ∧
    ((updateOwnEntry cLedgerHonest aliceKP 10 rndU).toOption.getD cLedgerHonest).allowSelfUpdate
      = cLedgerHonest.allowSelfUpdate ∧
    ((updateOwnEntry cLedgerHonest aliceKP 10 rndU).toOption.getD cLedgerHonest).entries.length
      = cLedgerHonest.entries.length := by
  have h := spec_c9_copy_on_write_frame cLedgerHonest aliceKP 10 rndU
    ((updateOwnEntry cLedgerHonest aliceKP 10 rndU).toOption.getD cLedgerHonest) rfl
  exact ⟨h.1, h.2.1, h.2.2.1⟩

/-- C8: the verification path converts every malformed stored field
into a false or none result instead of raising: a ledger with a
non-numeric total, an undecodable aggregate commitment or an
undecodable entry commitment verifies false and shows no public total
to any holder, and an undecryptable blob of the caller yields balance
none with the validity flag false; both operations are total
functions of their inputs in this embedding, mirroring the try-catch
structure of the source. -/
theorem spec_c8_verification_never_raises :
    (∀ l : LedgerState, MalformedLedger l →
      verifyTotal l = false ∧
      ∀ me : KeyPair, (getUserView l me).publicTotal = none) ∧
    (∀ (l : LedgerState) (me : KeyPair) (e : LedgerEntry),
      l.entries.find? (fun x => x.holderId == me.id) = some e →
      eciesDecrypt me.x25519.secretKey e.openingEncrypted = none →
      (getUserView l me).myBalance = none ∧
      (getUserView l me).myEntryValid = false) := by
  constructor
  · intro l hm
    have hfalse : verifyTotal l = false := by
      cases hb : verifyTotal l with
      | false => rfl
      | true =>
        exfalso
        obtain ⟨tV, rV, claimed, ps, gT, hR, h1, h2, h3, h4, h5, h6, h7, h8⟩ :=
          (verifyTotal_true_iff l).mp hb
        cases hm with
        | badT hbad => rw [h1] at hbad; cases hbad
        | badR hbad => rw [h2] at hbad; cases hbad
        | badSum hbad => rw [h3] at hbad; cases hbad
        | badEntry i e he hd =>
          have hmap : (l.entries.map (fun x => x.commit))[i]? = some e.commit := by
            rw [List.getElem?_map, he, Option.map_some']
          rw [decodeAll_none hmap hd] at h4
          cases h4
    exact ⟨hfalse, fun me => getUserView_publicTotal_none hfalse⟩
  · intro l me e hf hd
    exact getUserView_decFail hf hd

/-- Witness for C8: a junk total and a junk encrypted blob at concrete
ledgers. -/
theorem spec_c8_witness :
    verifyTotal { cLedgerHonest with
      total := { cLedgerHonest.total with T := NumEnc.junk 0 } } = false ∧
    (getUserView { cLedgerHonest with
      total := { cLedgerHonest.total with T := NumEnc.junk 0 } } aliceKP).publicTotal = none ∧
    (getUserView cLedgerBadBlob aliceKP).myBalance = none ∧
    (getUserView cLedgerBadBlob aliceKP).myEntryValid = false := by
  have h1 := spec_c8_verification_never_raises.1
    { cLedgerHonest with total := { cLedgerHonest.total with T := NumEnc.junk 0 } }
    (MalformedLedger.badT _ rfl)
  have h2 := spec_c8_verification_never_raises.2 cLedgerBadBlob aliceKP
    ⟨"alice", PointEnc.enc 5 7, EncBlob.junk 0⟩ rfl rfl
  exact ⟨h1.1, h1.2 aliceKP, h2.1, h2.2⟩

/-- C7: starting from an honest entry (stored commitment equal to the
commitment of the decrypted opening), replacing only that stored
commitment with any different encoding leaves the balance decryptable
and equal to the stored value, while balanceValid becomes false. -/
theorem spec_c7_entry_tamper_detected (l : LedgerState) (me : KeyPair)
    (i : Nat) (e : LedgerEntry) (v r : Int) (c : Pt) (c2 : PointEnc)
    (hFi : l.entries.findIdx? (fun x => x.holderId == me.id) = some i)
    (hGe : l.entries[i]? = some e)
    (hDe : eciesDecrypt me.x25519.secretKey e.openingEncrypted = some ⟨v, r⟩)
    (hCm : e.commit = pointToHex c)
    (hHon : commit v r = some c)
    (hne : c2 ≠ e.commit) :
    (getUserView { l with entries := l.entries.set i (LedgerEntry.mk e.holderId c2 e.openingEncrypted) } me).myBalance = some v ∧
    (getUserView { l with entries := l.entries.set i (LedgerEntry.mk e.holderId c2 e.openingEncrypted) } me).myEntryValid = false := by
  have hpe : (fun x : LedgerEntry => x.holderId == me.id) e = true := by
    obtain ⟨x, hx, hp⟩ := findIdx?_found hFi
    rw [hGe] at hx
    obtain rfl := Option.some.inj hx
    exact hp
  have hpe2 : (fun x : LedgerEntry => x.holderId == me.id)
      (LedgerEntry.mk e.holderId c2 e.openingEncrypted) = true := hpe
  have hfind : ((l.entries.set i (LedgerEntry.mk e.holderId c2 e.openingEncrypted)).find?
      (fun x => x.holderId == me.id)) = some (LedgerEntry.mk e.holderId c2 e.openingEncrypted) :=
    find?_set_found hFi hpe2
  have hview := getUserView_decrypted
    { l with entries := l.entries.set i (LedgerEntry.mk e.holderId c2 e.openingEncrypted) }
    me hfind hDe
  refine ⟨hview.1, ?_⟩
  rw [hview.2]
  cases hvo : verifyOpening c2 v r with
  | false => rfl
  | true =>
    exfalso
    obtain ⟨q, hq1, hq2⟩ := verifyOpening_true hvo
    rw [hHon] at hq2
    obtain rfl := Option.some.inj hq2
    exact hne (by rw [pointToHex_of_fromHex hq1, ← hCm])

/-- Witness for C7: tampering the single honest entry of the concrete
ledger. -/
theorem spec_c7_witness :
    (getUserView { cLedgerHonest with entries := cLedgerHonest.entries.set 0 (LedgerEntry.mk "alice" (PointEnc.enc 9 9) (eciesEncrypt (xpub 11) ⟨5, 7⟩ 3 13)) } aliceKP).myBalance = some 5 ∧
    (getUserView { cLedgerHonest with entries := cLedgerHonest.entries.set 0 (LedgerEntry.mk "alice" (PointEnc.enc 9 9) (eciesEncrypt (xpub 11) ⟨5, 7⟩ 3 13)) } aliceKP).myEntryValid = false :=
  spec_c7_entry_tamper_detected cLedgerHonest aliceKP 0
    ⟨"alice", PointEnc.enc 5 7, eciesEncrypt (xpub 11) ⟨5, 7⟩ 3 13⟩ 5 7
    ⟨(5, 7), by decide⟩ (PointEnc.enc 9 9)
    (by decide) rfl (by decide) rfl rfl (by decide)

/-- C6: the first three error cases fire in check order exactly as the
claim states.  The final clause of the claim, that every remaining
case returns a new LedgerState without raising, is false as stated
(see the counterexample); it holds once the new amount lies in [0, L),
the stored totals parse, and the stored commitments decode, which is
the amended form proved here. -/
theorem spec_c6_update_error_order (l : LedgerState) (me : KeyPair)
    (amt : Int) (rnd : UpdateEntropy) :
    (l.allowSelfUpdate = false →
      updateOwnEntry l me amt rnd = Except.error LedgerErr.permissionDenied) ∧
    (l.allowSelfUpdate = true →
      l.entries.findIdx? (fun e => e.holderId == me.id) = none →
      updateOwnEntry l me amt rnd = Except.error LedgerErr.notFound) ∧
    (∀ i e, l.allowSelfUpdate = true →
      l.entries.findIdx? (fun x => x.holderId == me.id) = some i →
      l.entries[i]? = some e →
      eciesDecrypt me.x25519.secretKey e.openingEncrypted = none →
      updateOwnEntry l me amt rnd = Except.error LedgerErr.decryptionFailure) ∧
    (∀ i e op tV rV ps, l.allowSelfUpdate = true →
      l.entries.findIdx? (fun x => x.holderId == me.id) = some i →
      l.entries[i]? = some e →
      eciesDecrypt me.x25519.secretKey e.openingEncrypted = some op →
      0 ≤ amt → amt < LI →
      decToBig l.total.T = some tV →
      decToBig l.total.R = some rV →
      decodeAll (l.entries.map (fun x => x.commit)) = some ps →
      ∃ l2, updateOwnEntry l me amt rnd = Except.ok l2) := by
  refine ⟨fun h => updateOwnEntry_notAllowed h,
    fun hAl hFi => updateOwnEntry_notFound hAl hFi,
    fun i e hAl hFi hGe hDe => updateOwnEntry_decFail hAl hFi hGe hDe,
    ?_⟩
  intro i e op tV rV ps hAl hFi hGe hDe h1 h2 hT hRv hDa
  obtain ⟨newC, hCo⟩ := commit_some h1 h2
    (modL_nonneg ((rnd.rBytes : Nat) : Int)) (modL_lt ((rnd.rBytes : Nat) : Int))
  have hDa2 : decodeAll ((l.entries.set i
      ⟨me.id, pointToHex newC,
        eciesEncrypt me.x25519.publicKey ⟨amt, modL ((rnd.rBytes : Nat) : Int)⟩
          rnd.eph rnd.nonce⟩).map (fun x => x.commit)) = some (ps.set i newC) := by
    rw [List.map_set]
    exact decodeAll_set hDa (pointFromHex_pointToHex newC)
  exact ⟨_, updateOwnEntry_ok hAl hFi hGe hDe hCo hT hRv hDa2⟩

/-- Counterexample for C6 as stated: on a valid ledger with
self-update enabled, a found entry and a decryptable opening, the call
with new amount -1 still raises a library error (the commitment
scalar is out of range) instead of returning a LedgerState. -/
theorem spec_c6_counterexample :
    cLedgerHonest.allowSelfUpdate = true ∧
    cLedgerHonest.entries.findIdx? (fun e => e.holderId == aliceKP.id) = some 0 ∧
    (∃ e, cLedgerHonest.entries[0]? = some e ∧
      eciesDecrypt aliceKP.x25519.secretKey e.openingEncrypted = some ⟨5, 7⟩) ∧
    updateOwnEntry cLedgerHonest aliceKP (-1) rndU = Except.error LedgerErr.cryptoError := by
  exact ⟨rfl, by decide, ⟨_, rfl, by decide⟩, rfl⟩

/-- Witness for C6: each clause of the amended theorem at concrete
inputs. -/
theorem spec_c6_witness :
    updateOwnEntry { cLedgerHonest with allowSelfUpdate := false } aliceKP 10 rndU
      = Except.error LedgerErr.permissionDenied ∧
    updateOwnEntry cLedgerHonest bobKP 10 rndU = Except.error LedgerErr.notFound ∧
    updateOwnEntry cLedgerBadBlob aliceKP 10 rndU = Except.error LedgerErr.decryptionFailure ∧
    ∃ l2, updateOwnEntry cLedgerHonest aliceKP 10 rndU = Except.ok l2 := by
  refine ⟨(spec_c6_update_error_order _ aliceKP 10 rndU).1 rfl,
    (spec_c6_update_error_order cLedgerHonest bobKP 10 rndU).2.1 rfl (by decide),
    (spec_c6_update_error_order cLedgerBadBlob aliceKP 10 rndU).2.2.1 0
      ⟨"alice", PointEnc.enc 5 7, EncBlob.junk 0⟩ rfl (by decide) rfl rfl,
    (spec_c6_update_error_order cLedgerHonest aliceKP 10 rndU).2.2.2 0
      ⟨"alice", PointEnc.enc 5 7, eciesEncrypt (xpub 11) ⟨5, 7⟩ 3 13⟩ ⟨5, 7⟩ 5 7
      [⟨(5, 7), by decide⟩] rfl (by decide) rfl (by decide) (by decide) (by decide)
      rfl rfl (by decide)⟩

/-- C2: starting from any ledger that verifies, changing exactly one
of an entry commitment, total.T, total.R or total.commitSum to any
different stored value makes verifyTotal false, and getHolderView
then reports publicTotal none to every holder. -/
theorem spec_c2_single_tamper_sound (l l2 : LedgerState)
    (hv : verifyTotal l = true) (ht : Tamper l l2) :
    verifyTotal l2 = false ∧
    ∀ me : KeyPair, (getUserView l2 me).publicTotal = none := by
  have hfalse : verifyTotal l2 = false := by
    cases hb : verifyTotal l2 with
    | false => rfl
    | true =>
    exfalso
    obtain ⟨tV, rV, claimed, ps, gT, hRp, h1, h2, h3, h4, h5, h6, h7, h8⟩ :=
      (verifyTotal_true_iff l).mp hv
    cases ht with
    | totalT t2 hne =>
      obtain ⟨tV2, rV2, claimed2, ps2, gT2, hRp2, k1, k2, k3, k4, k5, k6, k7, k8⟩ :=
        (verifyTotal_true_iff _).mp hb
      have k1b : decToBig t2 = some tV2 := k1
      have e3 : claimed2 = claimed := by
        have := k3
        rw [h3] at this
        exact (Option.some.inj this).symm
      have hz : zpair (Pt.add gT2 hRp2) = zpair (Pt.add gT hRp) := by
        rw [← k8, ← h8, e3]
      rw [zpair_add, zpair_add, zpair_multiply_G k6, zpair_multiply_G h6,
        zpair_multiply_H k7, zpair_multiply_H h7] at hz
      have hfst := congrArg Prod.fst hz
      simp only [Prod.fst_add, add_zero, zero_add] at hfst
      obtain ⟨k61, k62⟩ := multiply_range k6
      obtain ⟨h61, h62⟩ := multiply_range h6
      have heqT : tV2 = tV := zmod_intCast_inj (by omega) k62 (by omega) h62 hfst
      exact hne (by rw [decToBig_eq_some k1b, heqT, ← decToBig_eq_some h1])
    | totalR r2 hne =>
      obtain ⟨tV2, rV2, claimed2, ps2, gT2, hRp2, k1, k2, k3, k4, k5, k6, k7, k8⟩ :=
        (verifyTotal_true_iff _).mp hb
      have k2b : decToBig r2 = some rV2 := k2
      have e3 : claimed2 = claimed := by
        have := k3
        rw [h3] at this
        exact (Option.some.inj this).symm
      have hz : zpair (Pt.add gT2 hRp2) = zpair (Pt.add gT hRp) := by
        rw [← k8, ← h8, e3]
      rw [zpair_add, zpair_add, zpair_multiply_G k6, zpair_multiply_G h6,
        zpair_multiply_H k7, zpair_multiply_H h7] at hz
      have hsnd := congrArg Prod.snd hz
      simp only [Prod.snd_add, add_zero, zero_add] at hsnd
      obtain ⟨k71, k72⟩ := multiply_range k7
      obtain ⟨h71, h72⟩ := multiply_range h7
      have heqR : rV2 = rV := zmod_intCast_inj (by omega) k72 (by omega) h72 hsnd
      exact hne (by rw [decToBig_eq_some k2b, heqR, ← decToBig_eq_some h2])
    | commitSum c2 hne =>
      obtain ⟨tV2, rV2, claimed2, ps2, gT2, hRp2, k1, k2, k3, k4, k5, k6, k7, k8⟩ :=
        (verifyTotal_true_iff _).mp hb
      have k3b : pointFromHex c2 = some claimed2 := k3
      have e4 : ps2 = ps := by
        have := k4
        rw [h4] at this
        exact (Option.some.inj this).symm
      have e5 : claimed2 = claimed := by
        rw [k5, e4, ← h5]
      exact hne (by
        rw [pointToHex_of_fromHex k3b, e5, ← pointToHex_of_fromHex h3])
    | entryCommit i e c2 he hne =>
      obtain ⟨tV2, rV2, claimed2, ps2, gT2, hRp2, k1, k2, k3, k4, k5, k6, k7, k8⟩ :=
        (verifyTotal_true_iff _).mp hb
      have e3 : claimed2 = claimed := by
        have := k3
        rw [h3] at this
        exact (Option.some.inj this).symm
      have k4b : decodeAll ((l.entries.map (fun x => x.commit)).set i c2) = some ps2 := by
        have := k4
        rw [List.map_set] at this
        exact this
      have hi : i < (l.entries.map (fun x => x.commit)).length := by
        rw [List.length_map]
        exact (List.getElem?_eq_some_iff.mp he).1
      obtain ⟨p2, hp2, hps2⟩ := decodeAll_set_inv h4 k4b hi
      have hmape : (l.entries.map (fun x => x.commit))[i]? = some e.commit := by
        rw [List.getElem?_map, he, Option.map_some']
      obtain ⟨pi, hpi1, hpi2⟩ := decodeAll_getElem h4 hmape
      have hsums : sumPts (ps.set i p2) = sumPts ps := by
        rw [← hps2, ← k5, e3, h5]
      have hcan := zpair_sumPts_set p2 hpi1
      rw [hsums] at hcan
      have : zpair pi = zpair p2 := by
        exact add_left_cancel hcan
      obtain rfl := zpair_inj this
      exact hne (by rw [pointToHex_of_fromHex hp2, ← pointToHex_of_fromHex hpi2])
  exact ⟨hfalse, fun me => getUserView_publicTotal_none hfalse⟩

/-- Witness for C2: tampering total.T of the concrete honest ledger. -/
theorem spec_c2_witness :
    verifyTotal { cLedgerHonest with
      total := { cLedgerHonest.total with T := NumEnc.num 6 } } = false ∧
    (getUserView { cLedgerHonest with
      total := { cLedgerHonest.total with T := NumEnc.num 6 } } aliceKP).publicTotal = none := by
  have h := spec_c2_single_tamper_sound cLedgerHonest _ (by decide)
    (Tamper.totalT cLedgerHonest (NumEnc.num 6) (by decide))
  exact ⟨h.1, h.2 aliceKP⟩

/-- Every pedersen result is the canonical encoding of a commitment
to the reduced scalars. -/
theorem pedersen_eq (v r : Int) :
    ∃ c, commit (modL v) (modL r) = some c ∧ pedersen v r = pointToHex c ∧
      zpair c = ((v : ZMod L), (r : ZMod L)) := by
  obtain ⟨c, hc⟩ := commit_some (modL_nonneg v) (modL_lt v) (modL_nonneg r) (modL_lt r)
  refine ⟨c, hc, ?_, ?_⟩
  · unfold pedersen
    rw [hc]
  · have hz := commit_zpair hc
    rw [intCast_modL, intCast_modL] at hz
    exact hz

/-- C4: the homomorphism.  First conjunct: for all integers and all
blinding scalars, adding two pedersen commitments in the group equals
the pedersen commitment to the summed value with the blinding sum
reduced mod L; pedersen reduces both scalars, so this holds with no
restriction.  Second conjunct: the same identity for the ledger-core
commit function, which is defined exactly on scalars in [0, L). -/
theorem spec_c4_commit_homomorphism (v1 v2 r1 r2 : Int) :
    ristrettoAdd (pedersen v1 r1) (pedersen v2 r2)
      = some (pedersen (v1 + v2) (modL (r1 + r2))) ∧
    (0 ≤ v1 → 0 ≤ v2 → v1 + v2 < LI → 0 ≤ r1 → r1 < LI → 0 ≤ r2 → r2 < LI →
      ∃ c1 c2 c12, commit v1 r1 = some c1 ∧ commit v2 r2 = some c2 ∧
        commit (v1 + v2) (modL (r1 + r2)) = some c12 ∧ Pt.add c1 c2 = c12) := by
  constructor
  · obtain ⟨c1, hc1, hp1, hz1⟩ := pedersen_eq v1 r1
    obtain ⟨c2, hc2, hp2, hz2⟩ := pedersen_eq v2 r2
    obtain ⟨c12, hc12, hp12, hz12⟩ := pedersen_eq (v1 + v2) (modL (r1 + r2))
    rw [hp1, hp2, hp12]
    simp only [ristrettoAdd, pointFromHex_pointToHex]
    have hadd : Pt.add c1 c2 = c12 := by
      apply zpair_inj
      rw [zpair_add, hz1, hz2, hz12, intCast_modL, Prod.mk_add_mk, Prod.mk.injEq]
      constructor
      · push_cast
        ring
      · push_cast
        ring
    rw [hadd]
  · intro h1 h2 h3 h4 h5 h6 h7
    obtain ⟨c1, hc1⟩ := commit_some h1 (by omega) h4 h5
    obtain ⟨c2, hc2⟩ := commit_some h2 (by omega) h6 h7
    obtain ⟨c12, hc12⟩ := commit_some (by omega) h3 (modL_nonneg _) (modL_lt _)
    refine ⟨c1, c2, c12, hc1, hc2, hc12, ?_⟩
    apply zpair_inj
    rw [zpair_add, commit_zpair hc1, commit_zpair hc2, commit_zpair hc12,
      intCast_modL, Prod.mk_add_mk, Prod.mk.injEq]
    constructor
    · push_cast
      ring
    · push_cast
      ring

/-- Witness for C4 at concrete scalars. -/
theorem spec_c4_witness :
    ristrettoAdd (pedersen 3 4) (pedersen 5 6) = some (pedersen (3 + 5) (modL (4 + 6))) ∧
    ∃ c1 c2 c12, commit 3 4 = some c1 ∧ commit 5 6 = some c2 ∧
      commit (3 + 5) (modL (4 + 6)) = some c12 ∧ Pt.add c1 c2 = c12 :=
  ⟨(spec_c4_commit_homomorphism 3 5 4 6).1,
   (spec_c4_commit_homomorphism 3 5 4 6).2 (by decide) (by decide) (by decide)
     (by decide) (by decide) (by decide) (by decide)⟩

/-- C3 amended: the self-update invariant.  Beyond the stated
hypotheses (self-update allowed, ledger verifies, the callers entry
decrypts), the proof needs the decrypted opening to match the stored
commitment, the new amount to lie in [0, L), the updated declared
total to lie in [1, L), and the updated blinding sum to be nonzero
mod L; the counterexample below shows the claim fails without the
opening-matches-commitment hypothesis.  Under these conditions the
update succeeds, the new total is oldTotal - oldValue + newAmount,
and the resulting ledger verifies. -/
theorem spec_c3_self_update_invariant (l : LedgerState) (me : KeyPair)
    (newAmount : Int) (rnd : UpdateEntropy) (i : Nat) (e : LedgerEntry)
    (op : Opening) (tV rV : Int)
    (hAl : l.allowSelfUpdate = true)
    (hv : verifyTotal l = true)
    (hFi : l.entries.findIdx? (fun x => x.holderId == me.id) = some i)
    (hGe : l.entries[i]? = some e)
    (hDe : eciesDecrypt me.x25519.secretKey e.openingEncrypted = some op)
    (hVo : verifyOpening e.commit op.v op.r = true)
    (hT : decToBig l.total.T = some tV)
    (hRv : decToBig l.total.R = some rV)
    (hA1 : 0 ≤ newAmount) (hA2 : newAmount < LI)
    (hT1 : 1 ≤ tV - op.v + newAmount) (hT2 : tV - op.v + newAmount < LI)
    (hR0 : modL (rV - op.r + modL ((rnd.rBytes : Nat) : Int)) ≠ 0) :
    ∃ l2, updateOwnEntry l me newAmount rnd = Except.ok l2 ∧
      l2.total.T = NumEnc.num (tV - op.v + newAmount) ∧
      verifyTotal l2 = true := by
  obtain ⟨tV0, rV0, claimed, ps, gT, hRp, g1, g2, g3, g4, g5, g6, g7, g8⟩ :=
    (verifyTotal_true_iff l).mp hv
  have htv0 : tV0 = tV := by
    rw [hT] at g1
    exact (Option.some.inj g1).symm
  have hrv0 : rV0 = rV := by
    rw [hRv] at g2
    exact (Option.some.inj g2).symm
  rw [htv0] at g6
  rw [hrv0] at g7
  have hr1 : 0 ≤ modL ((rnd.rBytes : Nat) : Int) := modL_nonneg _
  have hr2 : modL ((rnd.rBytes : Nat) : Int) < LI := modL_lt _
  obtain ⟨newC, hCo⟩ := commit_some hA1 hA2 hr1 hr2
  have hDa2 : decodeAll ((l.entries.set i
      ⟨me.id, pointToHex newC,
        eciesEncrypt me.x25519.publicKey ⟨newAmount, modL ((rnd.rBytes : Nat) : Int)⟩
          rnd.eph rnd.nonce⟩).map (fun x => x.commit)) = some (ps.set i newC) := by
    rw [List.map_set]
    exact decodeAll_set g4 (pointFromHex_pointToHex newC)
  have hok := updateOwnEntry_ok hAl hFi hGe hDe hCo hT hRv hDa2
  refine ⟨_, hok, rfl, ?_⟩
  apply (verifyTotal_true_iff _).mpr
  have hRs1 : 1 ≤ modL (rV - op.r + modL ((rnd.rBytes : Nat) : Int)) := by
    have := modL_nonneg (rV - op.r + modL ((rnd.rBytes : Nat) : Int))
    omega
  have hRs2 := modL_lt (rV - op.r + modL ((rnd.rBytes : Nat) : Int))
  obtain ⟨gT2, hgT2⟩ := multiply_some Gpt hT1 hT2
  obtain ⟨hR2, hhR2⟩ := multiply_some Hpt hRs1 hRs2
  refine ⟨tV - op.v + newAmount, modL (rV - op.r + modL ((rnd.rBytes : Nat) : Int)),
    sumPts (ps.set i newC), ps.set i newC, gT2, hR2,
    rfl, rfl, pointFromHex_pointToHex _, hDa2, rfl, hgT2, hhR2, ?_⟩
  apply zpair_inj
  have hmape : (l.entries.map (fun x => x.commit))[i]? = some e.commit := by
    rw [List.getElem?_map, hGe, Option.map_some']
  obtain ⟨pi, hpi1, hpi2⟩ := decodeAll_getElem g4 hmape
  obtain ⟨q, hq1, hq2⟩ := verifyOpening_true hVo
  have hpiq : pi = q := by
    rw [hq1] at hpi2
    exact (Option.some.inj hpi2).symm
  have hzpi : zpair pi = ((op.v : ZMod L), (op.r : ZMod L)) := by
    rw [hpiq]
    exact commit_zpair hq2
  have hcan := zpair_sumPts_set newC hpi1
  have hsum : zpair (sumPts ps) = ((tV : ZMod L), (rV : ZMod L)) := by
    rw [← g5, g8, zpair_add, zpair_multiply_G g6, zpair_multiply_H g7,
      Prod.mk_add_mk, add_zero, zero_add]
  have hznewC : zpair newC = ((newAmount : ZMod L),
      ((modL ((rnd.rBytes : Nat) : Int) : Int) : ZMod L)) := commit_zpair hCo
  have hset : zpair (sumPts (ps.set i newC))
      = zpair (sumPts ps) + zpair newC - zpair pi := by
    exact eq_sub_of_add_eq hcan
  rw [hset, hsum, hznewC, hzpi, zpair_add, zpair_multiply_G hgT2,
    zpair_multiply_H hhR2]
  simp only [Prod.mk_add_mk, Prod.mk_sub_mk, add_zero, zero_add, Prod.mk.injEq]
  constructor
  · push_cast
    try ring
  · conv_rhs => rw [intCast_modL]
    push_cast
    try ring

/-- Counterexample for C3 as stated: a ledger that verifies, allows
self-update, and whose entry decrypts under the holder key, yet after
updateOwnEntry the result fails verifyTotal, because the encrypted
opening did not match the stored commitment.  The update succeeds and
even reports the total predicted by the claim, but the resulting
ledger is rejected by verifyTotal, refuting the claimed invariant. -/
theorem spec_c3_counterexample :
    verifyTotal cLedgerMismatch = true ∧
    cLedgerMismatch.allowSelfUpdate = true ∧
    (∃ e, cLedgerMismatch.entries[0]? = some e ∧
      eciesDecrypt aliceKP.x25519.secretKey e.openingEncrypted = some ⟨4, 7⟩) ∧
    (updateOwnEntry cLedgerMismatch aliceKP 10 rndU).toOption.map verifyTotal
      = some false := by
  exact ⟨by decide, rfl, ⟨_, rfl, by decide⟩, by decide⟩

/-- Witness for C3 at the concrete honest ledger: update alice from 5
to 10, with blinding byte 9 drawn. -/
theorem spec_c3_witness :
    ∃ l2, updateOwnEntry cLedgerHonest aliceKP 10 rndU = Except.ok l2 ∧
      l2.total.T = NumEnc.num (5 - 5 + 10) ∧
      verifyTotal l2 = true :=
  spec_c3_self_update_invariant cLedgerHonest aliceKP 10 rndU 0
    ⟨"alice", PointEnc.enc 5 7, eciesEncrypt (xpub 11) ⟨5, 7⟩ 3 13⟩ ⟨5, 7⟩ 5 7
    rfl (by decide) (by decide) rfl (by decide) (by decide) rfl rfl
    (by decide) (by decide) (by decide) (by decide) (by decide)

end CLedger
